import Mathlib

/-!
Verification of the Admin Helper core (structural-query wrapper, templating
engine, summarizer hooks, orchestrator) against its design specification.

The JavaScript source is shallowly embedded: JS strings become `List Char`,
the XPath snapshot result becomes a list of node handles, JS numbers (only
ever produced here by coercing cell text) become an exact rational extended
with a NaN point, thrown `TypeError`s become `Except.error`, and DOM-mutating
steps are modelled by returning the value that would be inserted (or `none`
when nothing is inserted).
-/

/- The core `Rat` operations are `@[irreducible]`, which blocks `decide` on
the concrete rational computations below; restore their normal reducibility
(this changes only elaboration, not their meaning). -/
set_option allowUnsafeReducibility true
attribute [semireducible] Rat.add Rat.mul Rat.div Rat.inv Rat.sub Rat.neg

/-- JS strings are modelled as lists of characters. -/
abbrev Str := List Char

/-- A JS number as produced by `textContent * 1`: either NaN or an exact
rational (all numerals appearing in this program are exactly representable). -/
inductive JSNum : Type where
  | nan : JSNum
  | num : ℚ → JSNum
deriving DecidableEq

/-- JS `+` on numbers: NaN is absorbing on either side. -/
def JSNum.add : JSNum → JSNum → JSNum
  | JSNum.num a, JSNum.num b => JSNum.num (a + b)
  | _, _ => JSNum.nan

/-- Wrapper for an XPathResult ordered snapshot (class `QueryResult` in the
source): `result` models the snapshot, whose `snapshotLength` is
`result.length` and whose `snapshotItem i` is `result.get? i`. -/
structure QueryResult (α : Type) where
  result : List α

/-- `this.length = result.snapshotLength`, fixed at construction. -/
def QueryResult.length {α : Type} (r : QueryResult α) : Nat :=
  r.result.length

/-- The indexed loop of `QueryResult.prototype.forEach`:
`for (var i = 0, l = snapshotLength; i < l; i++) callback(snapshotItem(i))`.
The callback's side effects are threaded through a state `σ`; the first
argument is fuel (the loop runs `l` iterations, so `l` fuel is enough). -/
def QueryResult.forEachAux {α σ : Type} (items : List α) (f : α → σ → σ) :
    Nat → Nat → σ → σ
  | 0, _, s => s
  | Nat.succ n, i, s =>
    match items[i]? with
    | some a => QueryResult.forEachAux items f n (i + 1) (f a s)
    | none => s

/-- `forEach`: iterate over the snapshot by index, in order (the source also
returns `this` for chaining; the model returns the threaded state). -/
def QueryResult.forEach {α σ : Type} (r : QueryResult α) (f : α → σ → σ) (s : σ) : σ :=
  QueryResult.forEachAux r.result f r.result.length 0 s

/-- `map`: delegates to `forEach`, pushing `callback(item)` onto an array. -/
def QueryResult.map {α β : Type} (r : QueryResult α) (f : α → β) : List β :=
  r.forEach (fun item acc => acc ++ [f item]) []

/-- `all`: `map` with the identity callback. -/
def QueryResult.all {α : Type} (r : QueryResult α) : List α :=
  r.map (fun item => item)

/-- Whether the first list is a prefix of the second (the literal-pattern
match test the regex replacements perform at each scan position). -/
def listPrefix : Str → Str → Bool
  | [], _ => true
  | a :: as, t =>
    match t with
    | [] => false
    | b :: bs => a == b && listPrefix as bs

/-- JS `String.prototype.replace(/c/g, rep)` for a single-character pattern:
every occurrence of the character is replaced, left to right. -/
def replaceChar (ch : Char) (rep : Str) : Str → Str
  | [] => []
  | a :: t => (if a = ch then rep else [a]) ++ replaceChar ch rep t

/-- `Template._escape`: the source's chain of six global replacements, `&`
first, then `"`, `'`, `<`, `>`, `/` (composition reads inside-out). -/
def Template.escapeHtml (s : Str) : Str :=
  replaceChar '/' ("&#x2F;".toList)
    (replaceChar '>' ("&gt;".toList)
      (replaceChar '<' ("&lt;".toList)
        (replaceChar '\'' ("&#39;".toList)
          (replaceChar '"' ("&quot;".toList)
            (replaceChar '&' ("&amp;".toList) s)))))

/-- Worker for `replaceList` with explicit fuel (one unit per character
consumed, so `s.length` fuel always suffices); structural recursion keeps
every concrete computation kernel-reducible. -/
def replaceListAux : Nat → Str → Str → Str → Str
  | 0, _, _, s => s
  | Nat.succ n, pat, repl, s =>
    match s with
    | [] => []
    | c :: rest =>
      if (!pat.isEmpty && listPrefix pat (c :: rest)) = true
      then repl ++ replaceListAux n pat repl (List.drop pat.length (c :: rest))
      else c :: replaceListAux n pat repl rest

/-- JS `template.replace(new RegExp(pat, 'g'), repl)` for a literal pattern
`pat`: leftmost, non-overlapping, global; the replacement text is not
rescanned (scanning resumes after the consumed occurrence of the original). -/
def replaceList (pat repl s : Str) : Str :=
  replaceListAux s.length pat repl s

/-- The brace-delimited placeholder a key matches: `'{' + key + '}'`. -/
def Template.placeholder (key : Str) : Str :=
  '\x7b' :: key ++ ['\x7d']

/-- `Template.render`: one global replacement pass per key of `data`, in
order; when `raw` is false the value is HTML-escaped before substitution. -/
def Template.render (template : Str) (data : List (Str × Str)) (raw : Bool) : Str :=
  data.foldl
    (fun t kv =>
      replaceList (Template.placeholder kv.1)
        (if raw then kv.2 else Template.escapeHtml kv.2) t)
    template

/-- `Template.renderObject`: renders `template` once per entry with the
two-variable context `{key: key, value: value}` and concatenates. -/
def Template.renderObject (template : Str) (data : List (Str × Str)) (raw : Bool) : Str :=
  data.foldl
    (fun out kv =>
      out ++ Template.render template [("key".toList, kv.1), ("value".toList, kv.2)] raw)
    []

/-- A character the regex `.` matches (anything but a line terminator). -/
def dotChar (c : Char) : Bool :=
  !(c == '\n' || c == '\r')

/-- Matching `/(.+?): .+/` anchored at the current position, having already
consumed `acc` into the lazy group: extend the group one character at a time
(lazy), succeeding as soon as `": "` follows with at least one `.` after. -/
def matchAt (acc : Str) : Str → Option Str
  | [] => none
  | c :: rest =>
    if dotChar c = false then none
    else
      match rest with
      | ':' :: ' ' :: d :: _ =>
        if dotChar d then some (acc ++ [c]) else matchAt (acc ++ [c]) rest
      | _ => matchAt (acc ++ [c]) rest

/-- `text.match(/(.+?): .+/)`, returning the first capture group (the label):
the leftmost starting position wins, and at that position the lazy group
takes the shortest prefix that lets the rest of the pattern match. -/
def matchLabel : Str → Option Str
  | [] => none
  | c :: rest =>
    match matchAt [] (c :: rest) with
    | some l => some l
    | none => matchLabel rest

/-- Whitespace trimmed by JS ToNumber before parsing. -/
def wsChar (c : Char) : Bool :=
  c == ' ' || c == '\t' || c == '\n' || c == '\r'

/-- Numeric value of a digit string (most significant first). -/
def digitsVal (l : Str) : Nat :=
  l.foldl (fun a c => a * 10 + (c.toNat - '0'.toNat)) 0

/-- Value of `ip . fp` as an exact rational. -/
def decValue (ip fp : Str) : ℚ :=
  (digitsVal ip : ℚ) + (digitsVal fp : ℚ) / ((10 : ℚ) ^ fp.length)

/-- The unsigned part of a decimal literal: digits, optionally a point and
more digits, at least one digit in total; anything else is NaN. -/
def toNumberCore (u : Str) (sg : ℚ) : JSNum :=
  match u.dropWhile Char.isDigit with
  | [] => if (u.takeWhile Char.isDigit).isEmpty then JSNum.nan
          else JSNum.num (sg * digitsVal (u.takeWhile Char.isDigit))
  | '.' :: fr =>
    if fr.all Char.isDigit && !((u.takeWhile Char.isDigit).isEmpty && fr.isEmpty)
    then JSNum.num (sg * decValue (u.takeWhile Char.isDigit) fr)
    else JSNum.nan
  | _ => JSNum.nan

/-- JS `textContent * 1` (ToNumber on a string), for the decimal-literal
strings this program meets: whitespace is trimmed, the empty string is 0,
an optional sign precedes a decimal literal, anything else is NaN. -/
def toNumber (s : Str) : JSNum :=
  match (s.dropWhile wsChar).reverse.dropWhile wsChar |>.reverse with
  | [] => JSNum.num 0
  | '-' :: r => toNumberCore r (-1)
  | '+' :: r => toNumberCore r 1
  | t => toNumberCore t 1

/-- The TotalsMap: label to accumulated total, in first-occurrence order
(a JS object keyed by the parsed labels). -/
abbrev Totals := List (Str × JSNum)

/-- `if (totals[k] === undefined) totals[k] = 0; totals[k] += hours;`:
a fresh key is appended initialized to zero, an existing key accumulates
in place. -/
def updateTotals : Totals → Str → JSNum → Totals
  | [], k, h => [(k, JSNum.add (JSNum.num 0) h)]
  | (k', v) :: rest, k, h =>
    if k' = k then (k', JSNum.add v h) :: rest
    else (k', v) :: updateTotals rest k h

/-- `totals[k]` as the model reads it back. -/
def lookupTotal (k : Str) : Totals → Option JSNum
  | [] => none
  | (k', v) :: rest => if k' = k then some v else lookupTotal k rest

deriving instance DecidableEq for Except

/-- A matched admin row as the Summarizer sees it: the text content of its
note cell and of its hours cell, each `none` when the nested structural query
(`Xpath.find(NOTE_CELL, row)` / `Xpath.find(HOUR_CELL, row)`) finds no cell. -/
structure Row where
  note : Option Str
  hours : Option Str

/-- One iteration of the `rows.forEach` body in `Summarize.run`:
`Xpath.find(NOTE_CELL, row)` returning null makes `noteNode.textContent`
throw a TypeError; a note whose text does not match `/(.+?): .+/` is skipped;
a matching note reads the hours cell (TypeError again if that cell is
absent), coerces its text with `* 1` and accumulates. -/
def Summarize.processRow (t : Totals) (r : Row) : Except String Totals :=
  match r.note with
  | none => Except.error "TypeError"
  | some noteText =>
    match matchLabel noteText with
    | none => Except.ok t
    | some label =>
      match r.hours with
      | none => Except.error "TypeError"
      | some hoursText => Except.ok (updateTotals t label (toNumber hoursText))

/-- The aggregation loop of `Summarize.run` threaded over the remaining rows:
a thrown TypeError aborts the iteration and propagates. -/
def Summarize.runTotalsFrom (t : Totals) : List Row → Except String Totals
  | [] => Except.ok t
  | r :: rest =>
    match Summarize.processRow t r with
    | Except.error e => Except.error e
    | Except.ok t' => Summarize.runTotalsFrom t' rest

/-- The aggregation pass of `Summarize.run`, starting from `var totals = {}`. -/
def Summarize.runTotals (rows : List Row) : Except String Totals :=
  Summarize.runTotalsFrom [] rows

/-- `Number.prototype.toFixed(d)`: nearest multiple of `10^-d`, ties to the
larger value, rendered with exactly `d` fractional digits; NaN prints "NaN". -/
def toFixed (d : Nat) : JSNum → Str
  | JSNum.nan => "NaN".toList
  | JSNum.num q =>
    let n : ℤ := ⌊q * (10 : ℚ) ^ d + 1 / 2⌋
    let m : Nat := n.natAbs
    let ip : Str := Nat.toDigits 10 (m / 10 ^ d)
    let fpRaw : Str := Nat.toDigits 10 (m % 10 ^ d)
    let fp : Str := List.replicate (d - fpRaw.length) '0' ++ fpRaw
    (if n < 0 then ['-'] else []) ++ (if d = 0 then ip else ip ++ '.' :: fp)

/-- `Summarize._formatTotals` at its default of 2 decimals: a fresh object
with every total passed through `toFixed(2)`. -/
def Summarize.formatTotals (totals : Totals) : List (Str × Str) :=
  totals.map (fun kv => (kv.1, toFixed 2 kv.2))

/-- `Summarize._shouldRender`: true exactly when the totals object has at
least one own enumerable key. -/
def Summarize.shouldRender (totals : Totals) : Bool :=
  match totals with
  | [] => false
  | _ :: _ => true

/-- The per-label list-item template of `Summarize._render` (note: no
closing `</li>`). -/
def liTemplate : Str :=
  "<li>\x7bkey\x7d: <span class=\"admin_helper_hours\">\x7bvalue\x7d</span>".toList

/-- The outer wrapper template of `Summarize._render`. -/
def ulTemplate : Str :=
  "<ul>\x7bitems\x7d</ul>".toList

/-- The summary markup `Summarize._render` assigns to `summary.innerHTML`:
`renderObject` (escaped) over the formatted totals, wrapped raw in `<ul>`. -/
def Summarize.summaryMarkup (formatted : List (Str × Str)) : Str :=
  Template.render ulTemplate
    [("items".toList, Template.renderObject liTemplate formatted false)] true

/-- `Summarize._render`: looks up the anchor (`TARGET_OUTPUT`), and only when
it exists and `_shouldRender(totals)` builds the summary element and inserts
it before the anchor. The model returns the inserted element's markup, or
`none` when nothing is inserted and the document is left unchanged. -/
def Summarize.renderSummary (anchorPresent : Bool) (totals : Totals) : Option Str :=
  if anchorPresent && Summarize.shouldRender totals
  then some (Summarize.summaryMarkup (Summarize.formatTotals totals))
  else none

/-- `Summarize.run`: aggregate, then render (a TypeError from the loop
propagates before any rendering). -/
def Summarize.run (rows : List Row) (anchorPresent : Bool) :
    Except String (Option Str) :=
  match Summarize.runTotals rows with
  | Except.error e => Except.error e
  | Except.ok t => Except.ok (Summarize.renderSummary anchorPresent t)

/-- A hook as `AdminHelper._iterateRows` sees it: `run` is `some f` when
`typeof hook.run === 'function'`, and `none` otherwise. `ρ` is the type of
the shared row snapshot, `σ` the type of the document state a hook's side
effects act on. -/
structure Hook (ρ σ : Type) where
  run : Option (ρ → σ → σ)

/-- `AdminHelper._iterateRows` given the rows of the single query: each hook
in order, skipping silently any whose `run` is not a function, every hook
receiving the same rows object and the document state left by its
predecessors. -/
def AdminHelper.iterateRows {ρ σ : Type} (hooks : List (Hook ρ σ)) (rows : ρ) (st : σ) : σ :=
  hooks.foldl
    (fun s h =>
      match h.run with
      | some f => f rows s
      | none => s)
    st

/-- `AdminHelper.init`: one structural query (`Xpath.findAll(ADMIN_ROWS)`)
against the current document state, then dispatch. -/
def AdminHelper.init {ρ σ : Type} (query : σ → ρ) (hooks : List (Hook ρ σ)) (st : σ) : σ :=
  AdminHelper.iterateRows hooks (query st) st

/-! ### Spec-side definitions used to state the claims -/

/-- Number of positions of `s` at which `pat` starts (for the patterns used
here — `<li>`, `</li>`, `A: 2.25` — occurrences cannot overlap themselves, so
this is the plain occurrence count). The recursive call is written first so
that concrete prefixes reduce definitionally. -/
def countOcc (pat : Str) : Str → Nat
  | [] => 0
  | c :: rest => countOcc pat rest + (if listPrefix pat (c :: rest) = true then 1 else 0)

/-- Whether `pat` occurs as a contiguous substring of `s`. -/
def hasOcc (pat : Str) : Str → Bool
  | [] => listPrefix pat []
  | c :: rest => listPrefix pat (c :: rest) || hasOcc pat rest

/-- Splitting `s` at every leftmost, non-overlapping occurrence of `pat`
(the spec's notion of "every textual occurrence of the placeholder"): the
segments are the text between consecutive replaced occurrences. Fueled like
`replaceListAux`. -/
def splitOnOccurrencesAux : Nat → Str → Str → List Str
  | 0, _, s => [s]
  | Nat.succ n, pat, s =>
    match s with
    | [] => [[]]
    | c :: rest =>
      if (!pat.isEmpty && listPrefix pat (c :: rest)) = true
      then [] :: splitOnOccurrencesAux n pat (List.drop pat.length (c :: rest))
      else
        match splitOnOccurrencesAux n pat rest with
        | [] => [[c]]
        | t :: ts => (c :: t) :: ts

/-- See `splitOnOccurrencesAux`. -/
def splitOnOccurrences (pat s : Str) : List Str :=
  splitOnOccurrencesAux s.length pat s

/-- The entity bodies that may follow a `&` in correctly escaped output. -/
def entityTails : List Str :=
  ["amp;".toList, "quot;".toList, "#39;".toList, "lt;".toList, "gt;".toList, "#x2F;".toList]

/-- A string with no unescaped special character: it contains no `<`, `>`,
`"` or `'` at all, and every `&` starts one of the six entities the escaper
emits. -/
def isEscapedSafe : Str → Bool
  | [] => true
  | c :: rest =>
    if c == '<' || c == '>' || c == '"' || c == '\'' then false
    else if c == '&' then entityTails.any (fun e => listPrefix e rest) && isEscapedSafe rest
    else isEscapedSafe rest

/-- What a value escapes to, characterwise (single-pass reading of the
source's six sequential replacements; `Template.escapeHtml` is proved equal
to its pointwise concatenation). -/
def escChar (c : Char) : Str :=
  if c = '&' then "&amp;".toList
  else if c = '"' then "&quot;".toList
  else if c = '\'' then "&#39;".toList
  else if c = '<' then "&lt;".toList
  else if c = '>' then "&gt;".toList
  else if c = '/' then "&#x2F;".toList
  else [c]

/-- The text content of a markup string as the host HTML parser would render
it: characters between `<` and `>` are tag text and dropped (the spec's
"each entry textually `label: total`"). First argument: currently inside a
tag. -/
def stripTags : Bool → Str → Str
  | _, [] => []
  | true, c :: r => if c = '>' then stripTags false r else stripTags true r
  | false, c :: r => if c = '<' then stripTags true r else c :: stripTags false r


/-- The tail of `liTemplate` after the `key` placeholder: what remains to be
scanned by the `value` substitution pass. -/
def liBody : Str := ": <span class=\"admin_helper_hours\">\x7bvalue\x7d</span>".toList

/-- `liBody` up to (and including) the opening of the hours span. -/
def liMid : Str := ": <span class=\"admin_helper_hours\">".toList

/-- The closing tag of the hours span (the only closing tag in a fragment). -/
def spanClose : Str := "</span>".toList

/-- The closing tag of the list container. -/
def ulClose : Str := "</ul>".toList

/-- The placeholder the `key` pass of `renderObject`'s render matches. -/
def keyPat : Str := Template.placeholder ("key".toList)

/-- The placeholder the `value` pass of `renderObject`'s render matches. -/
def valuePat : Str := Template.placeholder ("value".toList)

/-! ### Basic lemmas about the embedded operations -/

theorem listPrefix_iff (p : Str) : ∀ t, listPrefix p t = true ↔ p <+: t := by
  induction p with
  | nil => intro t; simp [listPrefix]
  | cons a as ih =>
    intro t
    cases t with
    | nil => simp [listPrefix]
    | cons b bs =>
      show (a == b && listPrefix as bs) = true ↔ _
      rw [Bool.and_eq_true, beq_iff_eq, ih bs]
      exact ⟨fun ⟨h1, h2⟩ => by subst h1; exact List.cons_prefix_cons.mpr ⟨rfl, h2⟩,
        fun h => by obtain ⟨h1, h2⟩ := List.cons_prefix_cons.mp h; exact ⟨h1, h2⟩⟩

theorem forEachAux_eq_foldl {α σ : Type} (items : List α) (f : α → σ → σ) :
    ∀ (n i : Nat) (s : σ), items.length ≤ i + n →
      QueryResult.forEachAux items f n i s =
        (items.drop i).foldl (fun acc a => f a acc) s := by
  intro n
  induction n with
  | zero =>
    intro i s hle
    have hd : items.drop i = [] := List.drop_eq_nil_of_le (by omega)
    simp [QueryResult.forEachAux, hd]
  | succ n ih =>
    intro i s hle
    cases hg : items[i]? with
    | some a =>
      obtain ⟨hi, hval⟩ := List.getElem?_eq_some.mp hg
      have hdrop : items.drop i = a :: items.drop (i + 1) := by
        rw [List.drop_eq_getElem_cons hi, hval]
      simp only [QueryResult.forEachAux, hg, hdrop, List.foldl_cons]
      exact ih (i + 1) (f a s) (by omega)
    | none =>
      have hlen : items.length ≤ i := by
        by_contra hn
        rw [List.getElem?_eq_getElem (by omega)] at hg
        exact Option.noConfusion hg
      have hd : items.drop i = [] := List.drop_eq_nil_of_le hlen
      simp [QueryResult.forEachAux, hg, hd]

theorem QueryResult.forEach_eq_foldl {α σ : Type} (r : QueryResult α) (f : α → σ → σ) (s : σ) :
    r.forEach f s = r.result.foldl (fun acc a => f a acc) s := by
  have := forEachAux_eq_foldl r.result f r.result.length 0 s (by omega)
  simpa [QueryResult.forEach] using this

theorem foldl_push_eq_map {α β : Type} (f : α → β) :
    ∀ (l : List α) (acc : List β),
      l.foldl (fun acc a => acc ++ [f a]) acc = acc ++ l.map f := by
  intro l
  induction l with
  | nil => intro acc; simp
  | cons a l ih => intro acc; simp [ih]

theorem QueryResult.map_eq {α β : Type} (r : QueryResult α) (f : α → β) :
    r.map f = r.result.map f := by
  rw [QueryResult.map, QueryResult.forEach_eq_foldl, foldl_push_eq_map]
  simp

theorem QueryResult.all_eq {α : Type} (r : QueryResult α) : r.all = r.result := by
  rw [QueryResult.all, QueryResult.map_eq]
  simp

/-- Claim C7: a ResultSet is re-iterable, not single-use: `forEach`, `map`
and `all` are pure functions of the fixed snapshot (so repeated calls on the
same ResultSet yield the same node sequence and the same count every time),
`all` returns exactly the snapshot, `R.all().length = R.length`, and
`forEach` visits the nodes in snapshot order. -/
theorem claim_C7 : ∀ (α β σ : Type) (r : QueryResult α) (f : α → β) (g : α → σ → σ) (s : σ),
    r.all.length = r.length ∧
    r.all = r.result ∧
    r.map f = r.result.map f ∧
    r.forEach g s = r.result.foldl (fun acc a => g a acc) s := by
  intro α β σ r f g s
  refine ⟨?_, QueryResult.all_eq r, QueryResult.map_eq r f, QueryResult.forEach_eq_foldl r g s⟩
  rw [QueryResult.all_eq]
  rfl

/-- Claim C6: the Orchestrator dispatches the single query's row snapshot to
the hooks strictly sequentially in the supplied order, silently skipping any
hook without a function-valued `run`: `iterateRows` is the sequential fold of
the function-valued hooks over the document state, each receiving the same
`rows`; in particular with hooks `[H1, H2]` (possibly separated by a
non-callable entry) `H2` runs on the exact state `H1` produced, so it
observes `H1`'s mutations; and `init` performs its one query and hands that
same snapshot to the whole pipeline. -/
theorem claim_C6 : ∀ (ρ σ : Type) (hooks : List (Hook ρ σ)) (rows : ρ) (st : σ)
    (f g : ρ → σ → σ) (query : σ → ρ),
    AdminHelper.iterateRows hooks rows st =
      (hooks.filterMap Hook.run).foldl (fun s fn => fn rows s) st ∧
    AdminHelper.iterateRows [⟨some f⟩, ⟨some g⟩] rows st = g rows (f rows st) ∧
    AdminHelper.iterateRows [⟨some f⟩, ⟨none⟩, ⟨some g⟩] rows st = g rows (f rows st) ∧
    AdminHelper.init query hooks st = AdminHelper.iterateRows hooks (query st) st := by
  intro ρ σ hooks rows st f g query
  refine ⟨?_, rfl, rfl, rfl⟩
  induction hooks generalizing st with
  | nil => rfl
  | cons h hooks ih =>
    cases hr : h.run with
    | some fn => simp [AdminHelper.iterateRows, List.filterMap_cons, hr, List.foldl_cons,
        AdminHelper.iterateRows] at ih ⊢; exact ih _
    | none => simp [AdminHelper.iterateRows, List.filterMap_cons, hr, List.foldl_cons] at ih ⊢; exact ih _

/-- Claim C4: the Summarizer's render step inserts nothing (no error, no
document change) when the anchor is absent or the TotalsMap is empty, and
inserts the summary element if and only if the anchor exists and at least
one label was aggregated (`_shouldRender` holds exactly on non-empty
totals). -/
theorem claim_C4 : ∀ (t : Totals) (a : Bool),
    (Summarize.shouldRender t = true ↔ t ≠ []) ∧
    Summarize.renderSummary false t = none ∧
    Summarize.renderSummary a [] = none ∧
    ((Summarize.renderSummary a t).isSome = true ↔ (a = true ∧ t ≠ [])) ∧
    (Summarize.renderSummary a t = none ↔ (a = false ∨ t = [])) := by
  intro t a
  cases t <;> cases a <;>
    simp [Summarize.renderSummary, Summarize.shouldRender]

/-! ### Equations for the fueled global replacement and split -/

theorem replaceListAux_succ (pat repl : Str) :
    ∀ (n : Nat) (s : Str), s.length ≤ n →
      replaceListAux (Nat.succ n) pat repl s = replaceListAux n pat repl s := by
  intro n
  induction n with
  | zero =>
    intro s hle
    have hs : s = [] := List.length_eq_zero.mp (by omega)
    subst hs
    rfl
  | succ n ih =>
    intro s hle
    cases s with
    | nil => rfl
    | cons c rest =>
      have hp1 : pat.isEmpty = false → 1 ≤ pat.length := by
        rcases pat with _ | ⟨p, ps⟩ <;> simp [List.isEmpty]
      show (if _ then _ else _) = (if _ then _ else _)
      cases hc : (!pat.isEmpty && listPrefix pat (c :: rest)) with
      | true =>
        simp only [hc, if_true]
        have hpe : pat.isEmpty = false := by
          have h' := hc
          simp only [Bool.and_eq_true, Bool.not_eq_true'] at h'
          exact h'.1
        have hlen : (List.drop pat.length (c :: rest)).length ≤ n := by
          have := hp1 hpe
          simp only [List.length_drop, List.length_cons] at *
          omega
        rw [ih _ hlen]
      | false =>
        simp only [hc, Bool.false_eq_true, if_false]
        rw [ih rest (by simpa using Nat.succ_le_succ_iff.mp hle)]

theorem replaceListAux_fuel (pat repl : Str) :
    ∀ (k : Nat) (s : Str), replaceListAux (s.length + k) pat repl s = replaceList pat repl s := by
  intro k
  induction k with
  | zero => intro s; rfl
  | succ k ih =>
    intro s
    have : s.length + Nat.succ k = Nat.succ (s.length + k) := by omega
    rw [this, replaceListAux_succ pat repl (s.length + k) s (by omega), ih]

theorem replaceListAux_ge (pat repl : Str) (n : Nat) (s : Str) (h : s.length ≤ n) :
    replaceListAux n pat repl s = replaceList pat repl s := by
  have hn : n = s.length + (n - s.length) := by omega
  rw [hn, replaceListAux_fuel]

theorem replaceList_pos (pat repl : Str) (c : Char) (rest : Str)
    (h : (!pat.isEmpty && listPrefix pat (c :: rest)) = true) :
    replaceList pat repl (c :: rest) =
      repl ++ replaceList pat repl (List.drop pat.length (c :: rest)) := by
  have hpe : pat.isEmpty = false := by
    have h' := h
    simp only [Bool.and_eq_true, Bool.not_eq_true'] at h'
    exact h'.1
  have hp1 : 1 ≤ pat.length := by
    rcases pat with _ | ⟨p, ps⟩
    · simp [List.isEmpty] at hpe
    · simp
  show replaceListAux (rest.length + 1) pat repl (c :: rest) = _
  show (if _ then _ else _) = _
  rw [h, if_pos rfl]
  congr 1
  apply replaceListAux_ge
  simp only [List.length_drop, List.length_cons]
  omega

theorem replaceList_neg (pat repl : Str) (c : Char) (rest : Str)
    (h : (!pat.isEmpty && listPrefix pat (c :: rest)) = false) :
    replaceList pat repl (c :: rest) = c :: replaceList pat repl rest := by
  show replaceListAux (rest.length + 1) pat repl (c :: rest) = _
  show (if _ then _ else _) = _
  rw [h]
  simp only [Bool.false_eq_true, if_false]
  rw [replaceListAux_ge pat repl rest.length rest (Nat.le_refl _)]

theorem splitOnOccurrencesAux_succ (pat : Str) :
    ∀ (n : Nat) (s : Str), s.length ≤ n →
      splitOnOccurrencesAux (Nat.succ n) pat s = splitOnOccurrencesAux n pat s := by
  intro n
  induction n with
  | zero =>
    intro s hle
    have hs : s = [] := List.length_eq_zero.mp (by omega)
    subst hs
    rfl
  | succ n ih =>
    intro s hle
    cases s with
    | nil => rfl
    | cons c rest =>
      show (if _ then _ else _) = (if _ then _ else _)
      cases hc : (!pat.isEmpty && listPrefix pat (c :: rest)) with
      | true =>
        simp only [hc, if_true]
        have hpe : pat.isEmpty = false := by
          have h' := hc
          simp only [Bool.and_eq_true, Bool.not_eq_true'] at h'
          exact h'.1
        have hp1 : 1 ≤ pat.length := by
          rcases pat with _ | ⟨p, ps⟩
          · simp [List.isEmpty] at hpe
          · simp
        have hlen : (List.drop pat.length (c :: rest)).length ≤ n := by
          simp only [List.length_drop, List.length_cons] at *
          omega
        rw [ih _ hlen]
      | false =>
        simp only [hc, Bool.false_eq_true, if_false]
        rw [ih rest (by simpa using Nat.succ_le_succ_iff.mp hle)]

theorem splitOnOccurrencesAux_ge (pat : Str) (n : Nat) (s : Str) (h : s.length ≤ n) :
    splitOnOccurrencesAux n pat s = splitOnOccurrences pat s := by
  have key : ∀ (k : Nat) (s : Str), splitOnOccurrencesAux (s.length + k) pat s = splitOnOccurrences pat s := by
    intro k
    induction k with
    | zero => intro s; rfl
    | succ k ih =>
      intro s
      have heq : s.length + Nat.succ k = Nat.succ (s.length + k) := by omega
      rw [heq, splitOnOccurrencesAux_succ pat (s.length + k) s (by omega), ih]
  have hn : n = s.length + (n - s.length) := by omega
  rw [hn, key]

theorem splitOnOccurrences_pos (pat : Str) (c : Char) (rest : Str)
    (h : (!pat.isEmpty && listPrefix pat (c :: rest)) = true) :
    splitOnOccurrences pat (c :: rest) =
      [] :: splitOnOccurrences pat (List.drop pat.length (c :: rest)) := by
  have hpe : pat.isEmpty = false := by
    have h' := h
    simp only [Bool.and_eq_true, Bool.not_eq_true'] at h'
    exact h'.1
  have hp1 : 1 ≤ pat.length := by
    rcases pat with _ | ⟨p, ps⟩
    · simp [List.isEmpty] at hpe
    · simp
  show splitOnOccurrencesAux (rest.length + 1) pat (c :: rest) = _
  show (if _ then _ else _) = _
  rw [h, if_pos rfl]
  congr 1
  apply splitOnOccurrencesAux_ge
  simp only [List.length_drop, List.length_cons]
  omega

theorem splitOnOccurrences_neg (pat : Str) (c : Char) (rest : Str)
    (h : (!pat.isEmpty && listPrefix pat (c :: rest)) = false) :
    splitOnOccurrences pat (c :: rest) =
      match splitOnOccurrences pat rest with
      | [] => [[c]]
      | t :: ts => (c :: t) :: ts := by
  show splitOnOccurrencesAux (rest.length + 1) pat (c :: rest) = _
  show (if _ then _ else _) = _
  rw [h]
  simp only [Bool.false_eq_true, if_false]
  rw [splitOnOccurrencesAux_ge pat rest.length rest (Nat.le_refl _)]

theorem splitOnOccurrences_ne_nil (pat : Str) (s : Str) :
    splitOnOccurrences pat s ≠ [] := by
  have key : ∀ (n : Nat) (s : Str), s.length ≤ n → splitOnOccurrences pat s ≠ [] := by
    intro n
    induction n with
    | zero =>
      intro s hle
      have hs : s = [] := List.length_eq_zero.mp (by omega)
      subst hs
      simp [splitOnOccurrences, splitOnOccurrencesAux]
    | succ n ih =>
      intro s hle
      cases s with
      | nil => simp [splitOnOccurrences, splitOnOccurrencesAux]
      | cons c rest =>
        cases hc : (!pat.isEmpty && listPrefix pat (c :: rest)) with
        | true =>
          rw [splitOnOccurrences_pos pat c rest hc]
          simp
        | false =>
          rw [splitOnOccurrences_neg pat c rest hc]
          cases splitOnOccurrences pat rest <;> simp
  exact key s.length s (Nat.le_refl _)

/-! ### C8: global substitution, unmatched placeholders -/

theorem intercalate_singleton {α : Type} (sep x : List α) :
    List.intercalate sep [x] = x := by
  simp [List.intercalate]

theorem intercalate_cons_cons {α : Type} (sep x y : List α) (ys : List (List α)) :
    List.intercalate sep (x :: y :: ys) = x ++ sep ++ List.intercalate sep (y :: ys) := by
  simp [List.intercalate, List.intersperse_cons_cons]

theorem intercalate_cons_head {α : Type} (sep : List α) (c : α) (t : List α) (ts : List (List α)) :
    List.intercalate sep ((c :: t) :: ts) = c :: List.intercalate sep (t :: ts) := by
  cases ts with
  | nil => simp [intercalate_singleton]
  | cons u us => simp [intercalate_cons_cons]

theorem replaceList_eq_intercalate (pat repl : Str) (hp : pat ≠ []) :
    ∀ s, replaceList pat repl s = List.intercalate repl (splitOnOccurrences pat s) := by
  have key : ∀ (n : Nat) (s : Str), s.length ≤ n →
      replaceList pat repl s = List.intercalate repl (splitOnOccurrences pat s) := by
    intro n
    induction n with
    | zero =>
      intro s hle
      have hs : s = [] := List.length_eq_zero.mp (by omega)
      subst hs
      show ([] : Str) = List.intercalate repl [[]]
      rw [intercalate_singleton]
    | succ n ih =>
      intro s hle
      cases s with
      | nil =>
        show ([] : Str) = List.intercalate repl [[]]
        rw [intercalate_singleton]
      | cons c rest =>
        have hp1 : 1 ≤ pat.length := by
          rcases pat with _ | ⟨p, ps⟩
          · exact absurd rfl hp
          · simp
        cases hc : (!pat.isEmpty && listPrefix pat (c :: rest)) with
        | true =>
          rw [replaceList_pos pat repl c rest hc, splitOnOccurrences_pos pat c rest hc]
          have hlen : (List.drop pat.length (c :: rest)).length ≤ n := by
            simp only [List.length_drop, List.length_cons] at *
            omega
          rcases hne : splitOnOccurrences pat (List.drop pat.length (c :: rest)) with _ | ⟨t, ts⟩
          · exact absurd hne (splitOnOccurrences_ne_nil pat _)
          · rw [intercalate_cons_cons]
            rw [ih _ hlen, hne]
            simp
        | false =>
          rw [replaceList_neg pat repl c rest hc, splitOnOccurrences_neg pat c rest hc]
          rcases hne : splitOnOccurrences pat rest with _ | ⟨t, ts⟩
          · exact absurd hne (splitOnOccurrences_ne_nil pat _)
          · rw [intercalate_cons_head]
            rw [ih rest (by simpa using Nat.succ_le_succ_iff.mp hle), hne]
  exact fun s => key s.length s (Nat.le_refl _)

theorem hasOcc_nil_of_ne (pat : Str) (hp : pat ≠ []) : hasOcc pat [] = false := by
  rcases pat with _ | ⟨p, ps⟩
  · exact absurd rfl hp
  · rfl

theorem hasOcc_cons (pat : Str) (c : Char) (rest : Str) :
    hasOcc pat (c :: rest) = (listPrefix pat (c :: rest) || hasOcc pat rest) := rfl

theorem replaceList_of_no_occ (pat repl : Str) :
    ∀ s, hasOcc pat s = false → replaceList pat repl s = s := by
  have key : ∀ (n : Nat) (s : Str), s.length ≤ n → hasOcc pat s = false →
      replaceList pat repl s = s := by
    intro n
    induction n with
    | zero =>
      intro s hle _
      have hs : s = [] := List.length_eq_zero.mp (by omega)
      subst hs
      rfl
    | succ n ih =>
      intro s hle hno
      cases s with
      | nil => rfl
      | cons c rest =>
        rw [hasOcc_cons] at hno
        have h1 : listPrefix pat (c :: rest) = false := by
          cases h : listPrefix pat (c :: rest)
          · rfl
          · rw [h] at hno; simp at hno
        have h2 : hasOcc pat rest = false := by
          cases h : hasOcc pat rest
          · rfl
          · rw [h] at hno; simp at hno
        have hcond : (!pat.isEmpty && listPrefix pat (c :: rest)) = false := by
          rw [h1, Bool.and_false]
        rw [replaceList_neg pat repl c rest hcond,
          ih rest (by simpa using Nat.succ_le_succ_iff.mp hle) h2]
  exact fun s => key s.length s (Nat.le_refl _)

theorem render_unmatched (T : Str) (D : List (Str × Str)) (raw : Bool)
    (h : ∀ kv ∈ D, hasOcc (Template.placeholder kv.1) T = false) :
    Template.render T D raw = T := by
  induction D generalizing T with
  | nil => rfl
  | cons kv D ih =>
    show Template.render _ (kv :: D) raw = T
    have step : replaceList (Template.placeholder kv.1)
        (if raw then kv.2 else Template.escapeHtml kv.2) T = T :=
      replaceList_of_no_occ _ _ T (h kv (List.mem_cons_self kv D))
    calc Template.render T (kv :: D) raw
        = Template.render (replaceList (Template.placeholder kv.1)
            (if raw then kv.2 else Template.escapeHtml kv.2) T) D raw := rfl
      _ = Template.render T D raw := by rw [step]
      _ = T := ih T (fun kv' hm => h kv' (List.mem_cons_of_mem kv hm))

theorem split_head_prefix (pat : Str) :
    ∀ s, ∃ t ts, splitOnOccurrences pat s = t :: ts ∧ t <+: s := by
  have key : ∀ (n : Nat) (s : Str), s.length ≤ n →
      ∃ t ts, splitOnOccurrences pat s = t :: ts ∧ t <+: s := by
    intro n
    induction n with
    | zero =>
      intro s hle
      have hs : s = [] := List.length_eq_zero.mp (by omega)
      subst hs
      exact ⟨[], [], rfl, List.nil_prefix⟩
    | succ n ih =>
      intro s hle
      cases s with
      | nil => exact ⟨[], [], rfl, List.nil_prefix⟩
      | cons c rest =>
        cases hc : (!pat.isEmpty && listPrefix pat (c :: rest)) with
        | true =>
          rw [splitOnOccurrences_pos pat c rest hc]
          exact ⟨[], _, rfl, List.nil_prefix⟩
        | false =>
          obtain ⟨t, ts, heq, hpre⟩ := ih rest (by simpa using Nat.succ_le_succ_iff.mp hle)
          refine ⟨c :: t, ts, ?_, List.cons_prefix_cons.mpr ⟨rfl, hpre⟩⟩
          rw [splitOnOccurrences_neg pat c rest hc, heq]
  exact fun s => key s.length s (Nat.le_refl _)

theorem split_segments_no_occ (pat : Str) (hp : pat ≠ []) :
    ∀ s seg, seg ∈ splitOnOccurrences pat s → hasOcc pat seg = false := by
  have key : ∀ (n : Nat) (s : Str), s.length ≤ n →
      ∀ seg, seg ∈ splitOnOccurrences pat s → hasOcc pat seg = false := by
    intro n
    induction n with
    | zero =>
      intro s hle seg hm
      have hs : s = [] := List.length_eq_zero.mp (by omega)
      subst hs
      have : seg = [] := by
        have : splitOnOccurrences pat ([] : Str) = [[]] := rfl
        rw [this] at hm
        simpa using hm
      subst this
      exact hasOcc_nil_of_ne pat hp
    | succ n ih =>
      intro s hle seg hm
      have hp1 : 1 ≤ pat.length := by
        rcases pat with _ | ⟨p, ps⟩
        · exact absurd rfl hp
        · simp
      cases s with
      | nil =>
        have : seg = [] := by
          have h0 : splitOnOccurrences pat ([] : Str) = [[]] := rfl
          rw [h0] at hm
          simpa using hm
        subst this
        exact hasOcc_nil_of_ne pat hp
      | cons c rest =>
        cases hc : (!pat.isEmpty && listPrefix pat (c :: rest)) with
        | true =>
          rw [splitOnOccurrences_pos pat c rest hc] at hm
          rcases List.mem_cons.mp hm with h | h
          · subst h; exact hasOcc_nil_of_ne pat hp
          · exact ih (List.drop pat.length (c :: rest))
              (by simp only [List.length_drop, List.length_cons] at *; omega) seg h
        | false =>
          rw [splitOnOccurrences_neg pat c rest hc] at hm
          have hrest : rest.length ≤ n := by simpa using Nat.succ_le_succ_iff.mp hle
          obtain ⟨t, ts, heq, hpre⟩ := split_head_prefix pat rest
          rw [heq] at hm
          rcases List.mem_cons.mp hm with h | h
          · subst h
            rw [hasOcc_cons]
            have ht : hasOcc pat t = false := ih rest hrest t (by rw [heq]; exact List.mem_cons_self _ _)
            have hnp : listPrefix pat (c :: t) = false := by
              cases hpp : listPrefix pat (c :: t)
              · rfl
              · exfalso
                have : pat <+: (c :: t) := (listPrefix_iff pat (c :: t)).mp hpp
                have : pat <+: (c :: rest) :=
                  this.trans (List.cons_prefix_cons.mpr ⟨rfl, hpre⟩)
                have hpp2 : listPrefix pat (c :: rest) = true :=
                  (listPrefix_iff pat (c :: rest)).mpr this
                rw [Bool.and_eq_false_iff] at hc
                rcases hc with hc | hc
                · rcases pat with _ | ⟨p, ps⟩
                  · exact absurd rfl hp
                  · simp [List.isEmpty] at hc
                · rw [hpp2] at hc; exact Bool.noConfusion hc
            rw [hnp, ht]
            rfl
          · exact ih rest hrest seg (by rw [heq]; exact List.mem_cons_of_mem _ h)
  exact fun s seg hm => key s.length s (Nat.le_refl _) seg hm

/-- Claim C8: `render` substitutes every textual occurrence of each key's
placeholder, not just the first — one replacement pass is exactly the
interleaving of the replacement into the split of the template at every
leftmost occurrence, and the split's segments contain no further occurrence —
while placeholders whose key is not in the data are left as literal text with
no error; the final conjunct shows a placeholder occurring twice being
substituted twice. -/
theorem claim_C8 :
    (∀ (pat repl s : Str), pat ≠ [] →
      replaceList pat repl s = List.intercalate repl (splitOnOccurrences pat s)) ∧
    (∀ (pat s seg : Str), pat ≠ [] → seg ∈ splitOnOccurrences pat s → hasOcc pat seg = false) ∧
    (∀ (T : Str) (D : List (Str × Str)) (raw : Bool),
      (∀ kv ∈ D, hasOcc (Template.placeholder kv.1) T = false) → Template.render T D raw = T) ∧
    Template.render "\x7ba\x7d x \x7ba\x7d".toList [("a".toList, "Y".toList)] true = "Y x Y".toList ∧
    Template.render "\x7ba\x7d and \x7bmissing\x7d".toList [("a".toList, "Y".toList)] true =
      "Y and \x7bmissing\x7d".toList := by
  refine ⟨?_, ?_, render_unmatched, by decide, by decide⟩
  · exact fun pat repl s hp => replaceList_eq_intercalate pat repl hp s
  · exact fun pat s seg hp hm => split_segments_no_occ pat hp s seg hm

/-! ### C2: escaping -/

theorem replaceChar_append (ch : Char) (rep : Str) :
    ∀ (u v : Str), replaceChar ch rep (u ++ v) = replaceChar ch rep u ++ replaceChar ch rep v := by
  intro u v
  induction u with
  | nil => rfl
  | cons a t ih =>
    show (if a = ch then rep else [a]) ++ replaceChar ch rep (t ++ v) = _
    rw [ih]
    simp [replaceChar, List.append_assoc]

theorem escapeHtml_append (u v : Str) :
    Template.escapeHtml (u ++ v) = Template.escapeHtml u ++ Template.escapeHtml v := by
  simp [Template.escapeHtml, replaceChar_append]

theorem escapeHtml_single (c : Char) : Template.escapeHtml [c] = escChar c := by
  by_cases h1 : c = '&'
  · subst h1; rfl
  by_cases h2 : c = '"'
  · subst h2; rfl
  by_cases h3 : c = '\''
  · subst h3; rfl
  by_cases h4 : c = '<'
  · subst h4; rfl
  by_cases h5 : c = '>'
  · subst h5; rfl
  by_cases h6 : c = '/'
  · subst h6; rfl
  simp [Template.escapeHtml, replaceChar, escChar, h1, h2, h3, h4, h5, h6]

theorem escapeHtml_cons (c : Char) (s : Str) :
    Template.escapeHtml (c :: s) = escChar c ++ Template.escapeHtml s := by
  have : (c :: s : Str) = [c] ++ s := rfl
  rw [this, escapeHtml_append, escapeHtml_single]

theorem escChar_no_angle (c : Char) : ('<') ∉ escChar c ∧ ('>') ∉ escChar c := by
  by_cases h1 : c = '&'
  · subst h1; exact ⟨by decide, by decide⟩
  by_cases h2 : c = '"'
  · subst h2; exact ⟨by decide, by decide⟩
  by_cases h3 : c = '\''
  · subst h3; exact ⟨by decide, by decide⟩
  by_cases h4 : c = '<'
  · subst h4; exact ⟨by decide, by decide⟩
  by_cases h5 : c = '>'
  · subst h5; exact ⟨by decide, by decide⟩
  by_cases h6 : c = '/'
  · subst h6; exact ⟨by decide, by decide⟩
  have e : escChar c = [c] := by simp [escChar, h1, h2, h3, h4, h5, h6]
  rw [e]
  constructor
  · simp
    exact fun h => h4 h.symm
  · simp
    exact fun h => h5 h.symm

theorem escapeHtml_no_angle (s : Str) :
    ('<') ∉ Template.escapeHtml s ∧ ('>') ∉ Template.escapeHtml s := by
  induction s with
  | nil => exact ⟨by decide, by decide⟩
  | cons c t ih =>
    rw [escapeHtml_cons]
    obtain ⟨hc1, hc2⟩ := escChar_no_angle c
    constructor
    · intro hmem
      rcases List.mem_append.mp hmem with h | h
      · exact hc1 h
      · exact ih.1 h
    · intro hmem
      rcases List.mem_append.mp hmem with h | h
      · exact hc2 h
      · exact ih.2 h

theorem safe_step_amp (t : Str) :
    isEscapedSafe ("&amp;".toList ++ t) = isEscapedSafe t := rfl

theorem safe_step_quot (t : Str) :
    isEscapedSafe ("&quot;".toList ++ t) = isEscapedSafe t := rfl

theorem safe_step_apos (t : Str) :
    isEscapedSafe ("&#39;".toList ++ t) = isEscapedSafe t := rfl

theorem safe_step_lt (t : Str) :
    isEscapedSafe ("&lt;".toList ++ t) = isEscapedSafe t := rfl

theorem safe_step_gt (t : Str) :
    isEscapedSafe ("&gt;".toList ++ t) = isEscapedSafe t := rfl

theorem safe_step_slash (t : Str) :
    isEscapedSafe ("&#x2F;".toList ++ t) = isEscapedSafe t := rfl

theorem escChar_safe (c : Char) (t : Str) (h : isEscapedSafe t = true) :
    isEscapedSafe (escChar c ++ t) = true := by
  by_cases h1 : c = '&'
  · subst h1; rw [show escChar '&' = "&amp;".toList from rfl, safe_step_amp]; exact h
  by_cases h2 : c = '"'
  · subst h2; rw [show escChar '"' = "&quot;".toList from rfl, safe_step_quot]; exact h
  by_cases h3 : c = '\''
  · subst h3; rw [show escChar '\'' = "&#39;".toList from rfl, safe_step_apos]; exact h
  by_cases h4 : c = '<'
  · subst h4; rw [show escChar '<' = "&lt;".toList from rfl, safe_step_lt]; exact h
  by_cases h5 : c = '>'
  · subst h5; rw [show escChar '>' = "&gt;".toList from rfl, safe_step_gt]; exact h
  by_cases h6 : c = '/'
  · subst h6; rw [show escChar '/' = "&#x2F;".toList from rfl, safe_step_slash]; exact h
  have e : escChar c = [c] := by simp [escChar, h1, h2, h3, h4, h5, h6]
  rw [e]
  show isEscapedSafe (c :: t) = true
  unfold isEscapedSafe
  rw [if_neg (by simp [h1, h2, h3, h4, h5]), if_neg (by simp [h1])]
  exact h

theorem escapeHtml_safe (s : Str) : isEscapedSafe (Template.escapeHtml s) = true := by
  induction s with
  | nil => rfl
  | cons c t ih =>
    rw [escapeHtml_cons]
    exact escChar_safe c _ ih

theorem render_false_eq_escaped :
    ∀ (D : List (Str × Str)) (T : Str),
      Template.render T D false =
        Template.render T (D.map (fun kv => (kv.1, Template.escapeHtml kv.2))) true := by
  intro D
  induction D with
  | nil => intro T; rfl
  | cons kv D ih =>
    intro T
    exact ih (replaceList (Template.placeholder kv.1) (Template.escapeHtml kv.2) T)

/-- Claim C2: with `raw = false`, every value of the data mapping passes
through the HTML escaper before substitution (`render T D false` is the raw
render of the escaped data), and the escaper's output never contains an
unescaped `<`, `>`, `"`, `'` or `&`: it has no `<`, `>`, `"`, `'` characters
at all and every `&` begins one of the six emitted entities (`&` is replaced
first, so entities are never double-escaped, as the concrete conjunct
shows). -/
theorem claim_C2 :
    (∀ (T : Str) (D : List (Str × Str)),
      Template.render T D false =
        Template.render T (D.map (fun kv => (kv.1, Template.escapeHtml kv.2))) true) ∧
    (∀ v : Str, isEscapedSafe (Template.escapeHtml v) = true) ∧
    (∀ v : Str, ('<') ∉ Template.escapeHtml v ∧ ('>') ∉ Template.escapeHtml v) ∧
    Template.escapeHtml "&\"'<>/".toList = "&amp;&quot;&#39;&lt;&gt;&#x2F;".toList := by
  exact ⟨fun T D => render_false_eq_escaped D T, escapeHtml_safe, escapeHtml_no_angle, by decide⟩

/-! ### C1, C5: behaviour of the aggregation loop on degenerate rows -/

theorem runTotalsFrom_missing_note (t : Totals) (r : Row) (rest : List Row)
    (h : r.note = none) :
    Summarize.runTotalsFrom t (r :: rest) = Except.error "TypeError" := by
  simp [Summarize.runTotalsFrom, Summarize.processRow, h]

theorem runTotalsFrom_skip (t : Totals) (r : Row) (rest : List Row) (s : Str)
    (h1 : r.note = some s) (h2 : matchLabel s = none) :
    Summarize.runTotalsFrom t (r :: rest) = Summarize.runTotalsFrom t rest := by
  simp [Summarize.runTotalsFrom, Summarize.processRow, h1, h2]

theorem runTotalsFrom_missing_hours (t : Totals) (r : Row) (rest : List Row) (s l : Str)
    (h1 : r.note = some s) (h2 : matchLabel s = some l) (h3 : r.hours = none) :
    Summarize.runTotalsFrom t (r :: rest) = Except.error "TypeError" := by
  simp [Summarize.runTotalsFrom, Summarize.processRow, h1, h2, h3]

/-- Claim C1, corrected. The claim as frozen is false: a row whose note cell
is absent does not get skipped — `noteNode.textContent` throws a TypeError
that aborts the whole pass (see `claim_C1_counterexample`), and likewise a
matching row whose hours cell is absent. What does hold: a row whose note
cell exists but whose text fails the `/(.+?): .+/` pattern is skipped with
no aggregation contribution and no error (conjuncts 2 and 4). -/
theorem claim_C1 :
    (∀ (t : Totals) (r : Row) (rest : List Row), r.note = none →
      Summarize.runTotalsFrom t (r :: rest) = Except.error "TypeError") ∧
    (∀ (t : Totals) (r : Row) (rest : List Row) (s : Str),
      r.note = some s → matchLabel s = none →
      Summarize.runTotalsFrom t (r :: rest) = Summarize.runTotalsFrom t rest) ∧
    (∀ (t : Totals) (r : Row) (rest : List Row) (s l : Str),
      r.note = some s → matchLabel s = some l → r.hours = none →
      Summarize.runTotalsFrom t (r :: rest) = Except.error "TypeError") ∧
    Summarize.runTotals [Row.mk (some "no label here".toList) (some "1.5".toList)] =
      Except.ok [] := by
  refine ⟨runTotalsFrom_missing_note, runTotalsFrom_skip, runTotalsFrom_missing_hours, by decide⟩

/-- Claim C1's counterexample: on a row whose note cell is absent the
Summarizer raises a TypeError instead of skipping the row — the processed
result is an error, not the empty TotalsMap the claim promises. -/
theorem claim_C1_counterexample :
    Summarize.runTotals [Row.mk none none] = Except.error "TypeError" ∧
    Summarize.runTotals [Row.mk none none] ≠ Except.ok [] := by
  exact ⟨rfl, by decide⟩

theorem JSNum.add_nan_right (x : JSNum) : JSNum.add x JSNum.nan = JSNum.nan := by
  cases x <;> rfl

theorem JSNum.add_nan_left (x : JSNum) : JSNum.add JSNum.nan x = JSNum.nan := by
  cases x <;> rfl

theorem lookup_update_self_nan :
    ∀ (t : Totals) (k : Str), lookupTotal k (updateTotals t k JSNum.nan) = some JSNum.nan := by
  intro t k
  induction t with
  | nil => simp [updateTotals, lookupTotal, JSNum.add]
  | cons kv rest ih =>
    rcases kv with ⟨a, v⟩
    by_cases h : a = k
    · subst h
      simp [updateTotals, lookupTotal, JSNum.add_nan_right]
    · simp [updateTotals, lookupTotal, h, ih]

theorem lookup_update_nan_preserved :
    ∀ (t : Totals) (k k' : Str) (h : JSNum), lookupTotal k t = some JSNum.nan →
      lookupTotal k (updateTotals t k' h) = some JSNum.nan := by
  intro t
  induction t with
  | nil =>
    intro k k' h hl
    simp [lookupTotal] at hl
  | cons kv rest ih =>
    rcases kv with ⟨a, v⟩
    intro k k' h hl
    by_cases hak' : a = k'
    · subst hak'
      by_cases hak : a = k
      · subst hak
        have hv : v = JSNum.nan := by
          simpa [lookupTotal] using hl
        subst hv
        simp [updateTotals, lookupTotal, JSNum.add_nan_left]
      · have hl' : lookupTotal k rest = some JSNum.nan := by
          simpa [lookupTotal, hak] using hl
        simp [updateTotals, lookupTotal, hak, hl']
    · by_cases hak : a = k
      · subst hak
        have hv : v = JSNum.nan := by
          simpa [lookupTotal] using hl
        subst hv
        simp [updateTotals, lookupTotal, hak']
      · have hl' : lookupTotal k rest = some JSNum.nan := by
          simpa [lookupTotal, hak] using hl
        simp [updateTotals, lookupTotal, hak', hak]
        exact ih k k' h hl'

theorem runTotalsFrom_nan_preserved :
    ∀ (rows : List Row) (t t' : Totals) (k : Str),
      lookupTotal k t = some JSNum.nan →
      Summarize.runTotalsFrom t rows = Except.ok t' →
      lookupTotal k t' = some JSNum.nan := by
  intro rows
  induction rows with
  | nil =>
    intro t t' k hl hr
    have : t = t' := by
      simpa [Summarize.runTotalsFrom] using hr
    subst this
    exact hl
  | cons r rows ih =>
    intro t t' k hl hr
    rcases hp : Summarize.processRow t r with e | t2
    · rw [show Summarize.runTotalsFrom t (r :: rows) = Except.error e by
        simp [Summarize.runTotalsFrom, hp]] at hr
      exact Except.noConfusion hr
    · have hr2 : Summarize.runTotalsFrom t2 rows = Except.ok t' := by
        rw [show Summarize.runTotalsFrom t (r :: rows) = Summarize.runTotalsFrom t2 rows by
          simp [Summarize.runTotalsFrom, hp]] at hr
        exact hr
      have hl2 : lookupTotal k t2 = some JSNum.nan := by
        rcases r with ⟨note, hours⟩
        cases note with
        | none => simp [Summarize.processRow] at hp
        | some s =>
          cases hm : matchLabel s with
          | none =>
            have : t = t2 := by
              simpa [Summarize.processRow, hm] using hp
            subst this
            exact hl
          | some l =>
            cases hours with
            | none => simp [Summarize.processRow, hm] at hp
            | some hs =>
              have : updateTotals t l (toNumber hs) = t2 := by
                simpa [Summarize.processRow, hm] using hp
              subst this
              exact lookup_update_nan_preserved t k l (toNumber hs) hl
      exact ih t2 t' k hl2 hr2

/-- Claim C5: a row whose note matches the label pattern but whose hours
text is non-numeric coerces to NaN and is accumulated without any error
(the row yields `Except.ok` with the label's total updated to NaN), the
poisoned total stays NaN through the remainder of the pass no matter what is
added later, and concretely a later numeric row for the same label leaves
the total NaN. -/
theorem claim_C5 :
    (∀ (t : Totals) (noteText hoursText l : Str),
      matchLabel noteText = some l → toNumber hoursText = JSNum.nan →
      Summarize.processRow t (Row.mk (some noteText) (some hoursText)) =
          Except.ok (updateTotals t l JSNum.nan) ∧
        lookupTotal l (updateTotals t l JSNum.nan) = some JSNum.nan) ∧
    (∀ (rows : List Row) (t t' : Totals) (k : Str),
      lookupTotal k t = some JSNum.nan →
      Summarize.runTotalsFrom t rows = Except.ok t' →
      lookupTotal k t' = some JSNum.nan) ∧
    Summarize.runTotals [Row.mk (some "A: x".toList) (some "oops".toList),
        Row.mk (some "A: y".toList) (some "2".toList)] =
      Except.ok [("A".toList, JSNum.nan)] := by
  refine ⟨?_, runTotalsFrom_nan_preserved, by decide⟩
  intro t noteText hoursText l hm hnum
  refine ⟨?_, lookup_update_self_nan t l⟩
  simp [Summarize.processRow, hm, hnum]

/-- Claim C9: placeholder substitution is performed sequentially, one global
pass per key in mapping order, over the current (already substituted) text —
so a placeholder spelled by an earlier key's substituted value is expanded by
a later key's pass: rendering the template consisting of the placeholder for
`a` with `a` mapped to the text of the placeholder for `b` and `b` mapped to
`X` yields `X`, even raw; with `b` absent from the data the same value passes
through literally, showing the expansion came from `b`'s later pass. -/
theorem claim_C9 :
    Template.render "\x7ba\x7d".toList
        [("a".toList, "\x7bb\x7d".toList), ("b".toList, "X".toList)] true = "X".toList ∧
    Template.render "\x7ba\x7d".toList [("a".toList, "\x7bb\x7d".toList)] true =
      "\x7bb\x7d".toList := by
  exact ⟨by decide, by decide⟩

/-- Claim C3: on rows with notes `A: x`, `B: y`, `A: z` and hours `1.5`,
`2.25`, `0.75`, the aggregation produces exactly the TotalsMap
`{A: 2.25, B: 2.25}` (labels in first-occurrence order, same-label hours
summed from a zero initial total, no error); formatting to two decimals
yields `2.25` for both labels, and the text content of the summary markup
inserted before the anchor contains `A: 2.25` and `B: 2.25` exactly once
each. -/
theorem claim_C3 :
    Summarize.runTotals
        [Row.mk (some "A: x".toList) (some "1.5".toList),
         Row.mk (some "B: y".toList) (some "2.25".toList),
         Row.mk (some "A: z".toList) (some "0.75".toList)] =
      Except.ok [("A".toList, JSNum.num (9/4)), ("B".toList, JSNum.num (9/4))] ∧
    Summarize.formatTotals [("A".toList, JSNum.num (9/4)), ("B".toList, JSNum.num (9/4))] =
      [("A".toList, "2.25".toList), ("B".toList, "2.25".toList)] ∧
    Summarize.run
        [Row.mk (some "A: x".toList) (some "1.5".toList),
         Row.mk (some "B: y".toList) (some "2.25".toList),
         Row.mk (some "A: z".toList) (some "0.75".toList)] true =
      Except.ok (some (Summarize.summaryMarkup
        [("A".toList, "2.25".toList), ("B".toList, "2.25".toList)])) ∧
    countOcc "A: 2.25".toList (stripTags false (Summarize.summaryMarkup
      [("A".toList, "2.25".toList), ("B".toList, "2.25".toList)])) = 1 ∧
    countOcc "B: 2.25".toList (stripTags false (Summarize.summaryMarkup
      [("A".toList, "2.25".toList), ("B".toList, "2.25".toList)])) = 1 := by
  refine ⟨by decide, by decide, ?_, by decide, by decide⟩
  decide

/-! ### C10: shape and tag census of the generated summary markup -/

theorem ul_wrap (r : Str) :
    Template.render ulTemplate [("items".toList, r)] true = "<ul>".toList ++ (r ++ ulClose) := rfl

theorem key_subst (r : Str) :
    replaceList keyPat r liTemplate = "<li>".toList ++ (r ++ liBody) := rfl

theorem liBody_split : liBody = liMid ++ (valuePat ++ spanClose) := rfl

theorem liStep (r z : Str) :
    replaceList valuePat r ('<' :: 'l' :: 'i' :: '>' :: z) =
      '<' :: 'l' :: 'i' :: '>' :: replaceList valuePat r z := by
  rw [replaceList_neg valuePat r '<' ('l' :: 'i' :: '>' :: z) rfl,
    replaceList_neg valuePat r 'l' ('i' :: '>' :: z) rfl,
    replaceList_neg valuePat r 'i' ('>' :: z) rfl,
    replaceList_neg valuePat r '>' z rfl]

theorem listPrefix_short_head :
    ∀ (p x t : Str) (h : Char), h ∉ p → x.length < p.length →
      listPrefix p (x ++ h :: t) = false := by
  intro p
  induction p with
  | nil =>
    intro x t h _ hlen
    simp at hlen
  | cons a p' ih =>
    intro x t h hh hlen
    cases x with
    | nil =>
      show (a == h && listPrefix p' t) = false
      have hne : a ≠ h := fun e => hh (by rw [← e]; exact List.mem_cons_self a p')
      rw [beq_eq_false_iff_ne.mpr hne, Bool.false_and]
    | cons c x' =>
      show (a == c && listPrefix p' (x' ++ h :: t)) = false
      have hh' : h ∉ p' := fun hm => hh (List.mem_cons_of_mem a hm)
      have hlen' : x'.length < p'.length := by
        simp only [List.length_cons] at hlen
        omega
      rw [ih x' t h hh' hlen', Bool.and_false]

theorem valueScan :
    ∀ (n : Nat) (x r : Str), x.length ≤ n → '<' ∉ x → '>' ∉ x → '<' ∉ r → '>' ∉ r →
      ∃ y, replaceList valuePat r (x ++ liBody) = y ++ (liMid ++ (r ++ spanClose)) ∧
        '<' ∉ y ∧ '>' ∉ y := by
  intro n
  induction n with
  | zero =>
    intro x r hle _ _ _ _
    have hx : x = [] := List.length_eq_zero.mp (by omega)
    subst hx
    exact ⟨[], rfl, by simp, by simp⟩
  | succ n ih =>
    intro x r hle hx1 hx2 hr1 hr2
    cases x with
    | nil => exact ⟨[], rfl, by simp, by simp⟩
    | cons c x' =>
      cases hc : (!valuePat.isEmpty && listPrefix valuePat (c :: (x' ++ liBody))) with
      | false =>
        have hstep : replaceList valuePat r ((c :: x') ++ liBody) =
            c :: replaceList valuePat r (x' ++ liBody) :=
          replaceList_neg valuePat r c (x' ++ liBody) hc
        obtain ⟨y, hy, hy1, hy2⟩ := ih x' r (by simpa using Nat.succ_le_succ_iff.mp hle)
          (fun hm => hx1 (List.mem_cons_of_mem c hm))
          (fun hm => hx2 (List.mem_cons_of_mem c hm)) hr1 hr2
        refine ⟨c :: y, ?_, ?_, ?_⟩
        · rw [hstep, hy]
          rfl
        · intro hm
          rcases List.mem_cons.mp hm with h | h
          · exact hx1 (by rw [h]; exact List.mem_cons_self c x')
          · exact hy1 h
        · intro hm
          rcases List.mem_cons.mp hm with h | h
          · exact hx2 (by rw [h]; exact List.mem_cons_self c x')
          · exact hy2 h
      | true =>
        by_cases hlen : valuePat.length ≤ (c :: x').length
        · have hstep : replaceList valuePat r ((c :: x') ++ liBody) =
              r ++ replaceList valuePat r (List.drop valuePat.length ((c :: x') ++ liBody)) :=
            replaceList_pos valuePat r c (x' ++ liBody) hc
          have hdrop : List.drop valuePat.length ((c :: x') ++ liBody) =
              List.drop valuePat.length (c :: x') ++ liBody := by
            rw [List.drop_append_eq_append_drop, Nat.sub_eq_zero_of_le hlen, List.drop_zero]
          obtain ⟨y, hy, hy1, hy2⟩ := ih (List.drop valuePat.length (c :: x')) r
            (by
              simp only [List.length_drop, List.length_cons]
              have h7 : 1 ≤ valuePat.length := by decide
              simp only [List.length_cons] at hle
              omega)
            (fun hm => hx1 (List.mem_of_mem_drop hm))
            (fun hm => hx2 (List.mem_of_mem_drop hm)) hr1 hr2
          refine ⟨r ++ y, ?_, ?_, ?_⟩
          · rw [hstep, hdrop, hy, List.append_assoc]
          · intro hm
            rcases List.mem_append.mp hm with h | h
            · exact hr1 h
            · exact hy1 h
          · intro hm
            rcases List.mem_append.mp hm with h | h
            · exact hr2 h
            · exact hy2 h
        · exfalso
          have hlt : (c :: x').length < valuePat.length := by omega
          have hpre : listPrefix valuePat (c :: (x' ++ liBody)) = true := by
            have h' := hc
            simp only [Bool.and_eq_true] at h'
            exact h'.2
          have hbad : listPrefix valuePat ((c :: x') ++ ':' :: (" <span class=\"admin_helper_hours\">\x7bvalue\x7d</span>".toList)) = false :=
            listPrefix_short_head valuePat (c :: x') _ ':' (by decide) hlt
          exact absurd hpre (by rw [show (c :: (x' ++ liBody) : Str) = (c :: x') ++ ':' :: (" <span class=\"admin_helper_hours\">\x7bvalue\x7d</span>".toList) from rfl, hbad]; simp)

theorem fragment_shape (k v : Str) :
    ∃ y, Template.render liTemplate [("key".toList, k), ("value".toList, v)] false =
        "<li>".toList ++ (y ++ (liMid ++ (Template.escapeHtml v ++ spanClose))) ∧
      '<' ∉ y ∧ '>' ∉ y := by
  have h1 : Template.render liTemplate [("key".toList, k), ("value".toList, v)] false =
      replaceList valuePat (Template.escapeHtml v)
        ('<' :: 'l' :: 'i' :: '>' :: (Template.escapeHtml k ++ liBody)) := by
    show replaceList valuePat (Template.escapeHtml v)
        (replaceList keyPat (Template.escapeHtml k) liTemplate) = _
    rw [key_subst]
    rfl
  obtain ⟨y, hy, hy1, hy2⟩ := valueScan (Template.escapeHtml k).length (Template.escapeHtml k)
    (Template.escapeHtml v) (Nat.le_refl _)
    (escapeHtml_no_angle k).1 (escapeHtml_no_angle k).2
    (escapeHtml_no_angle v).1 (escapeHtml_no_angle v).2
  refine ⟨y, ?_, hy1, hy2⟩
  rw [h1, liStep, hy]
  rfl

theorem countOcc_head_ne (a : Char) (p : Str) (c : Char) (t : Str) (h : a ≠ c) :
    countOcc (a :: p) (c :: t) = countOcc (a :: p) t := by
  have hpre : listPrefix (a :: p) (c :: t) = false := by
    show (a == c && listPrefix p t) = false
    rw [beq_eq_false_iff_ne.mpr h, Bool.false_and]
  simp [countOcc, hpre]

theorem countOcc_append_no_head (pat : Str) (a : Char) (p x z : Str)
    (hpat : pat = a :: p) (hx : a ∉ x) :
    countOcc pat (x ++ z) = countOcc pat z := by
  subst hpat
  induction x with
  | nil => rfl
  | cons c x' ih =>
    have hne : a ≠ c := fun e => hx (by rw [e]; exact List.mem_cons_self c x')
    show countOcc (a :: p) (c :: (x' ++ z)) = countOcc (a :: p) z
    rw [countOcc_head_ne a p c (x' ++ z) hne,
      ih (fun hm => hx (List.mem_cons_of_mem c hm))]

theorem cnt_li_open_li (z : Str) :
    countOcc "<li>".toList ('<' :: 'l' :: 'i' :: '>' :: z) = countOcc "<li>".toList z + 1 := rfl

theorem cnt_li_open_cli (z : Str) :
    countOcc "</li>".toList ('<' :: 'l' :: 'i' :: '>' :: z) = countOcc "</li>".toList z := rfl

theorem cnt_mid_li (z : Str) :
    countOcc "<li>".toList (liMid ++ z) = countOcc "<li>".toList z := rfl

theorem cnt_mid_cli (z : Str) :
    countOcc "</li>".toList (liMid ++ z) = countOcc "</li>".toList z := rfl

theorem cnt_span_li (z : Str) :
    countOcc "<li>".toList (spanClose ++ z) = countOcc "<li>".toList z := rfl

theorem cnt_span_cli (z : Str) :
    countOcc "</li>".toList (spanClose ++ z) = countOcc "</li>".toList z := rfl

theorem cnt_ul_open_li (z : Str) :
    countOcc "<li>".toList ('<' :: 'u' :: 'l' :: '>' :: z) = countOcc "<li>".toList z := rfl

theorem cnt_ul_open_cli (z : Str) :
    countOcc "</li>".toList ('<' :: 'u' :: 'l' :: '>' :: z) = countOcc "</li>".toList z := rfl

theorem cnt_ul_close_li : countOcc "<li>".toList ulClose = 0 := by decide

theorem cnt_ul_close_cli : countOcc "</li>".toList ulClose = 0 := by decide

theorem frag_cnt (y r z : Str) (hy1 : '<' ∉ y) (hr1 : '<' ∉ r) :
    countOcc "<li>".toList (("<li>".toList ++ (y ++ (liMid ++ (r ++ spanClose)))) ++ z) =
        countOcc "<li>".toList z + 1 ∧
      countOcc "</li>".toList (("<li>".toList ++ (y ++ (liMid ++ (r ++ spanClose)))) ++ z) =
        countOcc "</li>".toList z := by
  have assoc : ((y ++ (liMid ++ (r ++ spanClose))) ++ z) =
      y ++ (liMid ++ (r ++ (spanClose ++ z))) := by
    simp [List.append_assoc]
  constructor
  · show countOcc "<li>".toList
        ('<' :: 'l' :: 'i' :: '>' :: ((y ++ (liMid ++ (r ++ spanClose))) ++ z)) = _
    rw [cnt_li_open_li, assoc,
      countOcc_append_no_head "<li>".toList '<' "li>".toList y _ rfl hy1,
      cnt_mid_li,
      countOcc_append_no_head "<li>".toList '<' "li>".toList r _ rfl hr1,
      cnt_span_li]
  · show countOcc "</li>".toList
        ('<' :: 'l' :: 'i' :: '>' :: ((y ++ (liMid ++ (r ++ spanClose))) ++ z)) = _
    rw [cnt_li_open_cli, assoc,
      countOcc_append_no_head "</li>".toList '<' "/li>".toList y _ rfl hy1,
      cnt_mid_cli,
      countOcc_append_no_head "</li>".toList '<' "/li>".toList r _ rfl hr1,
      cnt_span_cli]

theorem foldl_append_flatten (g : Str × Str → Str) :
    ∀ (l : List (Str × Str)) (acc : Str),
      l.foldl (fun out kv => out ++ g kv) acc = acc ++ (l.map g).flatten := by
  intro l
  induction l with
  | nil => intro acc; simp
  | cons kv l ih =>
    intro acc
    show l.foldl (fun out kv => out ++ g kv) (acc ++ g kv) = _
    rw [ih (acc ++ g kv)]
    simp [List.append_assoc]

theorem renderObject_eq_flatten (template : Str) (data : List (Str × Str)) (raw : Bool) :
    Template.renderObject template data raw =
      (data.map (fun kv =>
        Template.render template [("key".toList, kv.1), ("value".toList, kv.2)] raw)).flatten := by
  show data.foldl _ [] = _
  rw [foldl_append_flatten (fun kv =>
    Template.render template [("key".toList, kv.1), ("value".toList, kv.2)] raw) data []]
  rfl

theorem inner_cnt :
    ∀ (ft : List (Str × Str)) (z : Str),
      countOcc "<li>".toList
          ((ft.map (fun kv =>
            Template.render liTemplate [("key".toList, kv.1), ("value".toList, kv.2)] false)).flatten ++ z) =
        countOcc "<li>".toList z + ft.length ∧
      countOcc "</li>".toList
          ((ft.map (fun kv =>
            Template.render liTemplate [("key".toList, kv.1), ("value".toList, kv.2)] false)).flatten ++ z) =
        countOcc "</li>".toList z := by
  intro ft
  induction ft with
  | nil => intro z; simp
  | cons kv ft ih =>
    intro z
    obtain ⟨y, hy, hy1, hy2⟩ := fragment_shape kv.1 kv.2
    have hassoc : ((Template.render liTemplate [("key".toList, kv.1), ("value".toList, kv.2)] false ::
        ft.map (fun kv =>
          Template.render liTemplate [("key".toList, kv.1), ("value".toList, kv.2)] false)).flatten ++ z) =
        (Template.render liTemplate [("key".toList, kv.1), ("value".toList, kv.2)] false) ++
          ((ft.map (fun kv =>
            Template.render liTemplate [("key".toList, kv.1), ("value".toList, kv.2)] false)).flatten ++ z) := by
      rw [List.flatten_cons, List.append_assoc]
    obtain ⟨hcnt1, hcnt2⟩ := frag_cnt y (Template.escapeHtml kv.2)
      ((ft.map (fun kv =>
        Template.render liTemplate [("key".toList, kv.1), ("value".toList, kv.2)] false)).flatten ++ z)
      hy1 (escapeHtml_no_angle kv.2).1
    constructor
    · show countOcc "<li>".toList
          ((Template.render liTemplate [("key".toList, kv.1), ("value".toList, kv.2)] false ::
            ft.map (fun kv =>
              Template.render liTemplate [("key".toList, kv.1), ("value".toList, kv.2)] false)).flatten ++ z) = _
      rw [hassoc, hy, hcnt1, (ih z).1]
      simp only [List.length_cons]
      omega
    · show countOcc "</li>".toList
          ((Template.render liTemplate [("key".toList, kv.1), ("value".toList, kv.2)] false ::
            ft.map (fun kv =>
              Template.render liTemplate [("key".toList, kv.1), ("value".toList, kv.2)] false)).flatten ++ z) = _
      rw [hassoc, hy, hcnt2, (ih z).2]

/-- Claim C10: for every formatted TotalsMap the summary markup built by the
render step — one fragment per label via `renderObject`, wrapped in a
`<ul>...</ul>` container — contains exactly one opening `<li>` per label and
no closing `</li>` anywhere: the per-label template leaves each list item
unclosed and relies on the host HTML parser to terminate it. -/
theorem claim_C10 :
    ∀ (formatted : List (Str × Str)),
      countOcc "<li>".toList (Summarize.summaryMarkup formatted) = formatted.length ∧
      countOcc "</li>".toList (Summarize.summaryMarkup formatted) = 0 := by
  intro ft
  have h1 : Summarize.summaryMarkup ft =
      "<ul>".toList ++ (Template.renderObject liTemplate ft false ++ ulClose) :=
    ul_wrap (Template.renderObject liTemplate ft false)
  rw [h1, renderObject_eq_flatten]
  constructor
  · show countOcc "<li>".toList
        ('<' :: 'u' :: 'l' :: '>' :: ((ft.map (fun kv =>
          Template.render liTemplate [("key".toList, kv.1), ("value".toList, kv.2)] false)).flatten ++ ulClose)) = _
    rw [cnt_ul_open_li, (inner_cnt ft ulClose).1, cnt_ul_close_li]
    omega
  · show countOcc "</li>".toList
        ('<' :: 'u' :: 'l' :: '>' :: ((ft.map (fun kv =>
          Template.render liTemplate [("key".toList, kv.1), ("value".toList, kv.2)] false)).flatten ++ ulClose)) = _
    rw [cnt_ul_open_cli, (inner_cnt ft ulClose).2, cnt_ul_close_cli]
